import Mathlib

/-!
Verification of the timetracker hierarchical data model
(src/timetracker/slugify.py, src/timetracker/models.py,
src/timetracker/scripts/tracker.py) against its specification.

Strings are modelled as lists of characters (`Str`); Python's `str` operations
used by the code (regex substitution over ASCII classes, `.lower()`,
`.strip('-')`, lexicographic comparison by code point) are translated
character by character below.
-/

namespace TimeTracker

/-- Python strings, modelled as lists of Unicode scalar values. -/
abbrev Str := List Char

/-- Membership test of the character class `[A-Za-z0-9]` used by
`SLUGIFY_RE = re.compile(r"([^A-Za-z0-9]+)")` in slugify.py. -/
def isAlnum (c : Char) : Bool :=
  (65 ≤ c.toNat && c.toNat ≤ 90) || (97 ≤ c.toNat && c.toNat ≤ 122) ||
    (48 ≤ c.toNat && c.toNat ≤ 57)

/-- Test for the dash character, the class stripped by `.strip('-')`. -/
def isDash (c : Char) : Bool := decide (c = '-')

/-- State machine form of `SLUGIFY_RE.sub("-", s)`: every maximal run of
characters outside `[A-Za-z0-9]` is replaced by a single dash.  The Bool flag
records whether the previous character was part of such a run (so that further
run characters are skipped instead of emitting another dash). -/
def subDash : Bool → Str → Str
  | _, [] => []
  | inRun, c :: cs =>
    if isAlnum c then c :: subDash false cs
    else
      match inRun with
      | true => subDash true cs
      | false => '-' :: subDash true cs

/-- Python's `.strip('-')`: remove all leading and trailing dashes. -/
def stripDash (l : Str) : Str :=
  ((l.dropWhile isDash).reverse.dropWhile isDash).reverse

/-- The function `slugify` of src/timetracker/slugify.py:
`SLUGIFY_RE.sub("-", s).lower().strip('-')`.  After the substitution only
ASCII alphanumerics and dashes remain, on which Python's `.lower()` agrees
with ASCII lowercasing (`Char.toLower`). -/
def slugify (s : Str) : Str :=
  stripDash ((subDash false s).map Char.toLower)

/-- Decimal digit character, used to render the counter of `slugify_unique`
exactly as Python's f-string does. -/
def digitChar (d : Nat) : Char := Char.ofNat (48 + d)

/-- Big-endian decimal rendering of a natural number, with explicit structural
fuel (the number itself bounds the number of digits). -/
def natRenderAux : Nat → Nat → Str
  | 0, _ => []
  | _ + 1, 0 => []
  | fuel + 1, n + 1 => natRenderAux fuel ((n + 1) / 10) ++ [digitChar ((n + 1) % 10)]

/-- Decimal rendering of a natural number, as produced by Python's
string formatting of the loop counter. -/
def natRender (n : Nat) : Str := natRenderAux n n

/-- The value of the variable `slug` of `slugify_unique` at a given counter
value: the bare slug for count 1, and slug-count from count 2 on. -/
def candidate (pfx : Str) (count : Nat) : Str :=
  if count ≤ 1 then pfx else pfx ++ '-' :: natRender count

/-- The `while slug in used` loop of `slugify_unique`.  The fuel argument is a
bound on the number of iterations; `slugifyUnique_spec` below shows that with
the fuel chosen in `slugify_unique` the fuel-exhausted fallback is never
reached, so this equals the unbounded Python loop. -/
def slugifyUniqueAux (pfx : Str) (used : List Str) : Nat → Nat → Str
  | 0, count => candidate pfx count
  | fuel + 1, count =>
    if candidate pfx count ∈ used then slugifyUniqueAux pfx used fuel (count + 1)
    else candidate pfx count

/-- The function `slugify_unique` of src/timetracker/slugify.py: slugify the
text, then keep incrementing a counter starting at 2 until the candidate is
not in `used`.  The model is a pure function: `used` is read-only and the
result is deterministic, as in the source. -/
def slugify_unique (s : Str) (used : List Str) : Str :=
  slugifyUniqueAux (slugify s) used (used.length + 1) 1

/-- Character class of the normalization procedure as worded by the
specification for claim C2: ASCII letters, digits, or dash are kept, so a
dash would not be part of any replaced run. -/
def specKeep (c : Char) : Bool := isAlnum c || isDash c

/-- Run-replacement as worded by the specification for claim C2 (runs of
characters that are not letters, digits, *or dash* collapse to one dash),
for comparison with `subDash`, which is translated from the code's regex. -/
def specSubDash : Bool → Str → Str
  | _, [] => []
  | inRun, c :: cs =>
    if specKeep c then c :: specSubDash false cs
    else
      match inRun with
      | true => specSubDash true cs
      | false => '-' :: specSubDash true cs

/-- The normalization procedure exactly as the specification words it for
claim C2, to be compared with `slugify`. -/
def normalizeSpecC2 (s : Str) : Str :=
  stripDash ((specSubDash false s).map Char.toLower)

/-- Error kinds of section 7 of the specification, with the Python exception
each one corresponds to in the source. -/
inductive Err where
  /-- ValueError raised by Task.__init__ (models.py line 148). -/
  | invalidDuration
  /-- KeyError raised by add_task / add_category on an explicit id collision. -/
  | duplicateId
  /-- Exception raised by Category.delete on a non-empty category (line 135). -/
  | notEmpty
  /-- Exception raised by Category.delete / Task.delete without a parent. -/
  | noParent
  /-- ValueError raised by TrackerCmd.do_rm on the root (tracker.py line 183). -/
  | cannotDeleteRoot
  /-- KeyError raised while indexing a child mapping (traverse, `del`). -/
  | notFound
  /-- TypeError raised by indexing through a Task in traverse. -/
  | notTraversable
  /-- TypeError raised by calling a function with an unexpected keyword. -/
  | typeError
deriving DecidableEq

/-- The dynamically typed `mins` argument of Task.__init__ / add_task: Python's
None (the default, meaning "unset"), a Python int, or a value of any other
type. -/
inductive MinsArg where
  | unset
  | int (n : Int)
  | notInt
deriving DecidableEq

/-- A node of the tree: a Category (models.py class Category, a mapping of
child id to child node plus id/title/description) or a Task (models.py class
Task, with an optional integer duration).  The child mapping is modelled as a
list in insertion order; its keys are the children's `id` fields, exactly as
maintained by add_task / add_category (`self[id] = node` with `node.id = id`).
The parent back-reference is navigation-only in the source and is represented
here by the position of the node in the tree. -/
inductive Node where
  | cat (id title description : Str) (children : List Node)
  | task (id title description : Str) (mins : Option Int)

/-- The id attribute of a node, which is also its key in the parent's child
mapping. -/
def Node.id : Node → Str
  | .cat i _ _ _ => i
  | .task i _ _ _ => i

/-- Python `isinstance(v, Category)`. -/
def Node.isCat : Node → Bool
  | .cat _ _ _ _ => true
  | .task _ _ _ _ => false

/-- Python `isinstance(v, Task)`. -/
def Node.isTask : Node → Bool
  | .cat _ _ _ _ => false
  | .task _ _ _ _ => true

/-- The keys of a child mapping (`self.keys()`). -/
def keysOf (cs : List Node) : List Str := cs.map Node.id

/-- Assignment `self[k] = v` on a Python dict: replace the entry in place if
the key is present, otherwise append a new entry. -/
def dictInsert (cs : List Node) (k : Str) (v : Node) : List Node :=
  if k ∈ keysOf cs then cs.map (fun c => if c.id = k then v else c) else cs ++ [v]

/-- Python `del self[k]`: remove the (unique) entry with key `k`. -/
def dictErase (cs : List Node) (k : Str) : List Node :=
  cs.eraseP (fun c => c.id == k)

/-- Lookup `self[k]` on a child mapping. -/
def dictGet? (cs : List Node) (k : Str) : Option Node :=
  cs.find? (fun c => c.id == k)

/-- The `mins` validation of Task.__init__ (models.py lines 147-148):
`if mins is not None and not isinstance(mins, int): raise ValueError(...)`.
The check is only on the type; the sign of an int is not inspected. -/
def checkMins : MinsArg → Except Err (Option Int)
  | .unset => .ok none
  | .int n => .ok (some n)
  | .notInt => .error .invalidDuration

/-- Category.add_task (models.py lines 39-54), acting on the parent's child
mapping.  Python raises before mutating, so the mapping is returned unchanged
on failure.  Order of checks follows the source: explicit-id collision first
(KeyError), then Task construction (ValueError for a bad `mins`), then
insertion. -/
def add_task (cs : List Node) (title descr : Str) (id? : Option Str)
    (mins : MinsArg) : Except Err Unit × List Node :=
  match id? with
  | some i =>
    if i ∈ keysOf cs then (.error .duplicateId, cs)
    else
      match checkMins mins with
      | .error e => (.error e, cs)
      | .ok m => (.ok (), dictInsert cs i (.task i title descr m))
  | none =>
    let i := slugify_unique title (keysOf cs)
    match checkMins mins with
    | .error e => (.error e, cs)
    | .ok m => (.ok (), dictInsert cs i (.task i title descr m))

/-- Category.add_category (models.py lines 56-71), acting on the parent's
child mapping. -/
def add_category (cs : List Node) (title descr : Str) (id? : Option Str) :
    Except Err Unit × List Node :=
  match id? with
  | some i =>
    if i ∈ keysOf cs then (.error .duplicateId, cs)
    else (.ok (), dictInsert cs i (.cat i title descr []))
  | none =>
    let i := slugify_unique title (keysOf cs)
    (.ok (), dictInsert cs i (.cat i title descr []))

/-- Comparison used by `sorted(list(self.items()))` in categories / tasks:
Python sorts the (key, value) pairs, and with the keys unique among siblings
this is exactly ascending lexicographic order of the keys, i.e. of the child
ids (Python compares strings by code point, as the `List Char` order does). -/
def idLe (a b : Node) : Prop := a.id ≤ b.id

instance : DecidableRel idLe := fun a b => inferInstanceAs (Decidable (a.id ≤ b.id))

instance : IsTotal Node idLe := ⟨fun a b => le_total a.id b.id⟩

instance : IsTrans Node idLe := ⟨fun _ _ _ h1 h2 => le_trans h1 h2⟩

/-- The `sorted(list(self.items()))` step shared by Category.categories and
Category.tasks: the children in ascending id order. -/
def sortNodes (cs : List Node) : List Node := cs.insertionSort idLe

/-- Auxiliary size lemma: permuting a list does not change its `sizeOf`; used
to justify termination of the traversals below, which recurse through the
sorted copy of the child list. -/
theorem sizeOf_of_perm {l1 l2 : List Node} (h : l1.Perm l2) :
    sizeOf l1 = sizeOf l2 := by
  induction h with
  | nil => rfl
  | cons x _ ih => simp [ih]
  | swap x y l => simp; omega
  | trans _ _ ih1 ih2 => exact ih1.trans ih2

theorem sizeOf_sortNodes (cs : List Node) : sizeOf (sortNodes cs) = sizeOf cs :=
  sizeOf_of_perm (List.perm_insertionSort idLe cs)

mutual

/-- Category.categories (models.py lines 73-92): the Category children in
ascending id order; with `recurse`, each child category is followed by its own
recursive listing (depth first).  In the source this is a method of Category
only; the `task` case is unreachable and yields nothing. -/
def Node.categories (n : Node) (recurse : Bool) : List Node :=
  match n with
  | .task _ _ _ _ => []
  | .cat _ _ _ cs => catsFrom (sortNodes cs) recurse
termination_by sizeOf n
decreasing_by all_goals (simp [sizeOf_sortNodes]; try omega)

/-- The `for k, v in sorted(list(self.items()))` loop body of
Category.categories. -/
def catsFrom (l : List Node) (recurse : Bool) : List Node :=
  match l with
  | [] => []
  | v :: rest =>
    (match v with
     | .cat i t d cs2 =>
       Node.cat i t d cs2 ::
         (if recurse then Node.categories (.cat i t d cs2) true else [])
     | .task _ _ _ _ => []) ++ catsFrom rest recurse
termination_by sizeOf l
decreasing_by all_goals (simp; try omega)

end

mutual

/-- Category.tasks (models.py lines 94-112): one pass over the children in
ascending id order, yielding Task children directly and, with `recurse`,
descending into Category children.  Method of Category only; the `task` case
is unreachable and yields nothing. -/
def Node.tasks (n : Node) (recurse : Bool) : List Node :=
  match n with
  | .task _ _ _ _ => []
  | .cat _ _ _ cs => tasksFrom (sortNodes cs) recurse
termination_by sizeOf n
decreasing_by all_goals (simp [sizeOf_sortNodes]; try omega)

/-- The `for k, v in sorted(list(self.items()))` loop body of Category.tasks:
`if isinstance(v, Task): yield v` then
`if recurse and isinstance(v, Category): yield from v.tasks(True)`. -/
def tasksFrom (l : List Node) (recurse : Bool) : List Node :=
  match l with
  | [] => []
  | v :: rest =>
    (match v with
     | .task i t d m => [Node.task i t d m]
     | .cat _ _ _ _ => []) ++
    (match v with
     | .cat i t d cs2 => if recurse then Node.tasks (.cat i t d cs2) true else []
     | .task _ _ _ _ => []) ++ tasksFrom rest recurse
termination_by sizeOf l
decreasing_by all_goals (simp; try omega)

end

/-- The summand `t.mins or 0` of Category.total_mins: an unset duration
counts as 0 (and so does an explicit 0 — Python's `or` gives 0 either way). -/
def minsOrZero : Node → Int
  | .task _ _ _ m => m.getD 0
  | .cat _ _ _ _ => 0

/-- Category.total_mins (models.py lines 114-123):
`sum(t.mins or 0 for t in self.tasks(recurse))`. -/
def Node.total_mins (n : Node) (recurse : Bool) : Int :=
  ((n.tasks recurse).map minsOrZero).sum

mutual

/-- Every Task transitively reachable strictly below a node, written directly
from the wording of the specification ("the sum of mins over every Task
reachable transitively under container"); used to state claim C6 against
`Node.total_mins`. -/
def reachTasks : Node → List Node
  | .task i t d m => [Node.task i t d m]
  | .cat _ _ _ cs => reachTasksL cs

/-- Reachable tasks of a list of sibling subtrees. -/
def reachTasksL : List Node → List Node
  | [] => []
  | v :: vs => reachTasks v ++ reachTasksL vs

end

/-- TrackerCmd.traverse (tracker.py lines 46-64) on the model tree, taking the
already-split segments of the dotted path.  A missing key raises KeyError
(NotFound); indexing through a Task raises TypeError (NotTraversable). -/
def resolve (n : Node) (path : List Str) : Except Err Node :=
  match path with
  | [] => .ok n
  | seg :: rest =>
    match n with
    | .task _ _ _ _ => .error .notTraversable
    | .cat _ _ _ cs =>
      match dictGet? cs seg with
      | none => .error .notFound
      | some child => resolve child rest

/-- Helper for `del self.__parent__[self.id]`: rebuild the tree with the entry
of key `k` removed from the child mapping of the category at `path`. -/
def removeChildAt (n : Node) (path : List Str) (k : Str) : Node :=
  match n, path with
  | .task i t d m, _ => .task i t d m
  | .cat i t d cs, [] => .cat i t d (dictErase cs k)
  | .cat i t d cs, seg :: rest =>
    .cat i t d (cs.map fun c => if c.id == seg then removeChildAt c rest k else c)

/-- TrackerCmd.do_rm (tracker.py lines 177-190) composed with Category.delete
(models.py lines 125-138) / Task.delete (models.py lines 168-174): resolve the
path, refuse to delete the root, then call `obj.delete(recurse=recurse)`.
Because `Task.delete(self)` accepts no `recurse` keyword, that call raises
TypeError whenever the target is a Task.  For a Category the parent exists
(the path is non-empty), so the order of checks is: non-empty child set
without `recurse` fails NotEmpty, otherwise the node is removed from its
parent.  Python raises before mutating, so the pair returns the tree
unchanged on every failure. -/
def do_rm (root : Node) (path : List Str) (recurse : Bool) :
    Except Err Unit × Node :=
  match resolve root path with
  | .error e => (.error e, root)
  | .ok obj =>
    match path with
    | [] => (.error .cannotDeleteRoot, root)
    | _ :: _ =>
      match obj with
      | .task _ _ _ _ => (.error .typeError, root)
      | .cat _ _ _ cs =>
        if ¬cs.isEmpty ∧ recurse = false then (.error .notEmpty, root)
        else (.ok (), removeChildAt root path.dropLast obj.id)

/-- Task.delete (models.py lines 168-174) called directly, as
`task.delete()`: `parent` is the child mapping of the owning category, or
`none` for a detached task.  Without a parent it raises ("Cannot delete task
without parent", the NoParent error kind); with one it performs
`del self.__parent__[self.id]` (KeyError — modelled as notFound — if the key
is somehow absent, which cannot happen for an attached task). -/
def Task.delete (parent : Option (List Node)) (taskId : Str) :
    Except Err (List Node) :=
  match parent with
  | none => .error .noParent
  | some cs =>
    if taskId ∈ keysOf cs then .ok (dictErase cs taskId) else .error .notFound

/-- One id-less mutation of claim C4: addCategory or addTask on a parent
without an explicit id. -/
inductive AddOp where
  | addCat (title descr : Str)
  | addTask (title descr : Str) (mins : MinsArg)

/-- Apply one id-less mutation to a parent's child mapping (the result value
is discarded; a failed add leaves the mapping unchanged). -/
def applyOp (cs : List Node) : AddOp → List Node
  | .addCat t d => (add_category cs t d none).2
  | .addTask t d m => (add_task cs t d none m).2

/-- Apply a finite sequence of id-less mutations in order. -/
def applyOps (cs : List Node) (ops : List AddOp) : List Node :=
  ops.foldl applyOp cs

/-- Decimal parser, a left inverse of `natRender` used to prove the renderer
injective (so that distinct loop counters give distinct candidate slugs). -/
def parseDec (l : Str) : Nat := l.foldl (fun acc c => acc * 10 + (c.toNat - 48)) 0

/-- Output alphabet of `slugify`: lowercase ASCII letters, digits, and the
dash. -/
def isLowerDigitDash (c : Char) : Bool :=
  (97 ≤ c.toNat && c.toNat ≤ 122) || (48 ≤ c.toNat && c.toNat ≤ 57) || isDash c

/-- No two adjacent characters of the list are both dashes (each dash is
isolated, i.e. every separator run was collapsed to a single dash). -/
def noTwoDashes (l : Str) : Prop :=
  List.Chain' (fun a b => (isDash a && isDash b) = false) l

/-- The head of the list, if any, is not a dash. -/
def headNotDash (l : Str) : Prop := ∀ c, l.head? = some c → isDash c = false

/-- The last element of the list, if any, is not a dash. -/
def lastNotDash (l : Str) : Prop := ∀ c, l.getLast? = some c → isDash c = false

/-- The summand list of total_mins: durations with unset counted as 0. -/
def sumMins (l : List Node) : Int := (l.map minsOrZero).sum

/-- The condition of claim C1 on the supplied duration, written from the
claim's words: unset, or a non-negative integer.  For comparison with the
check actually performed by Task.__init__ (`checkMins`). -/
def minsOkSpecC1 : MinsArg → Bool
  | .unset => true
  | .int n => decide (0 ≤ n)
  | .notInt => false

/-- The stored `mins` attribute resulting from a valid `mins` argument. -/
def minsVal : MinsArg → Option Int
  | .unset => none
  | .int n => some n
  | .notInt => none

/-- Sample tree for concrete witnesses: a root holding category `work`, which
holds category `projects`, which holds task `design` with 90 minutes (the
scenario of section 8 of the specification). -/
def sampleTree : Node :=
  .cat "".data "".data "".data
    [.cat "work".data "Work".data "".data
      [.cat "projects".data "Projects".data "".data
        [.task "design".data "Design".data "".data (some 90)]]]

example : slugify "Hello Joel".data = "hello-joel".data := by decide
example : slugify "Hello, , Joel".data = "hello-joel".data := by decide
example : slugify " Hello ".data = "hello".data := by decide
example : slugify_unique "Hello Joel".data [] = "hello-joel".data := by decide
example : slugify_unique "Hello".data ["hello".data] = "hello-2".data := by decide

theorem digitChar_toNat {d : Nat} (h : d < 10) : (digitChar d).toNat = 48 + d := by
  interval_cases d <;> decide

theorem parseDec_append_one (l : Str) (c : Char) :
    parseDec (l ++ [c]) = parseDec l * 10 + (c.toNat - 48) := by
  simp [parseDec, List.foldl_append]

theorem parseDec_natRenderAux (fuel : Nat) :
    ∀ n, n ≤ fuel → parseDec (natRenderAux fuel n) = n := by
  induction fuel with
  | zero =>
    intro n h
    interval_cases n
    rfl
  | succ fuel ih =>
    intro n h
    match n with
    | 0 => rfl
    | n + 1 =>
      have hlt : (n + 1) / 10 < n + 1 := Nat.div_lt_self (Nat.succ_pos n) (by omega)
      have ihv := ih ((n + 1) / 10) (by omega)
      show parseDec (natRenderAux fuel ((n + 1) / 10) ++ [digitChar ((n + 1) % 10)]) = n + 1
      rw [parseDec_append_one, ihv, digitChar_toNat (Nat.mod_lt _ (by omega))]
      omega

theorem parseDec_natRender (n : Nat) : parseDec (natRender n) = n :=
  parseDec_natRenderAux n n le_rfl

theorem natRender_inj {a b : Nat} (h : natRender a = natRender b) : a = b := by
  have ha := parseDec_natRender a
  have hb := parseDec_natRender b
  rw [h] at ha
  omega

theorem candidate_one (pfx : Str) : candidate pfx 1 = pfx := rfl

theorem candidate_inj (pfx : Str) {a b : Nat} (ha : 1 ≤ a) (hb : 1 ≤ b)
    (h : candidate pfx a = candidate pfx b) : a = b := by
  unfold candidate at h
  by_cases h1 : a ≤ 1 <;> by_cases h2 : b ≤ 1
  · omega
  · rw [if_pos h1, if_neg h2] at h
    have := congrArg List.length h
    simp at this
  · rw [if_neg h1, if_pos h2] at h
    have := congrArg List.length h
    simp at this
  · rw [if_neg h1, if_neg h2] at h
    have h' := List.append_cancel_left h
    injection h' with h1 h2
    exact natRender_inj h2


theorem exists_candidate_not_mem (pfx : Str) (used : List Str) :
    ∃ i ≤ used.length, candidate pfx (1 + i) ∉ used := by
  by_contra hc
  push_neg at hc
  have hnd : ((List.range (used.length + 1)).map
      (fun i => candidate pfx (1 + i))).Nodup := by
    refine List.Nodup.map_on ?_ (List.nodup_range _)
    intro x _ y _ hxy
    have := candidate_inj pfx (by omega) (by omega) hxy
    omega
  have hsub : ((List.range (used.length + 1)).map
      (fun i => candidate pfx (1 + i))) ⊆ used := by
    intro a ha
    simp only [List.mem_map, List.mem_range] at ha
    obtain ⟨i, hi, rfl⟩ := ha
    exact hc i (by omega)
  have hlen := (List.subperm_of_subset hnd hsub).length_le
  simp at hlen

theorem slugifyUniqueAux_spec (pfx : Str) (used : List Str) :
    ∀ fuel count, (∃ i, i < fuel ∧ candidate pfx (count + i) ∉ used) →
      ∃ i, i < fuel ∧ slugifyUniqueAux pfx used fuel count = candidate pfx (count + i)
        ∧ candidate pfx (count + i) ∉ used
        ∧ ∀ j, j < i → candidate pfx (count + j) ∈ used := by
  intro fuel
  induction fuel with
  | zero =>
    rintro count ⟨i, hi, _⟩
    omega
  | succ fuel ih =>
    rintro count ⟨i, hi, hfree⟩
    by_cases hmem : candidate pfx count ∈ used
    · have hex : ∃ i', i' < fuel ∧ candidate pfx (count + 1 + i') ∉ used := by
        match i, hi, hfree with
        | 0, _, hfree => exact absurd hmem (by simpa using hfree)
        | i' + 1, hi, hfree =>
          exact ⟨i', by omega, by rw [show count + 1 + i' = count + (i' + 1) by omega]; exact hfree⟩
      obtain ⟨i', hi', heq, hfree', hfirst⟩ := ih (count + 1) hex
      refine ⟨i' + 1, by omega, ?_, ?_, ?_⟩
      · show slugifyUniqueAux pfx used (fuel + 1) count = _
        simp only [slugifyUniqueAux, if_pos hmem]
        rw [heq]
        congr 1
        omega
      · rw [show count + (i' + 1) = count + 1 + i' by omega]
        exact hfree'
      · intro j hj
        match j with
        | 0 => simpa using hmem
        | j' + 1 =>
          have := hfirst j' (by omega)
          rw [show count + (j' + 1) = count + 1 + j' by omega]
          exact this
    · exact ⟨0, by omega, by simp [slugifyUniqueAux, if_neg hmem],
        by simpa using hmem, by omega⟩

/-- Behaviour of the slugify_unique loop: it returns the first candidate of
the sequence base, base-2, base-3, ... that is not in `used`. -/
theorem slugify_unique_cases (s : Str) (used : List Str) :
    ∃ i, i ≤ used.length ∧ slugify_unique s used = candidate (slugify s) (1 + i)
      ∧ candidate (slugify s) (1 + i) ∉ used
      ∧ ∀ j, j < i → candidate (slugify s) (1 + j) ∈ used := by
  obtain ⟨i0, hi0, hfree⟩ := exists_candidate_not_mem (slugify s) used
  obtain ⟨i, hi, heq, hf, hfirst⟩ := slugifyUniqueAux_spec (slugify s) used
    (used.length + 1) 1 ⟨i0, by omega, hfree⟩
  exact ⟨i, by omega, heq, hf, hfirst⟩

theorem slugify_unique_not_mem (s : Str) (used : List Str) :
    slugify_unique s used ∉ used := by
  obtain ⟨i, _, heq, hf, _⟩ := slugify_unique_cases s used
  rw [heq]
  exact hf

theorem slugify_unique_of_not_mem {s : Str} {used : List Str}
    (h : slugify s ∉ used) : slugify_unique s used = slugify s := by
  obtain ⟨i, _, heq, hf, hfirst⟩ := slugify_unique_cases s used
  rcases Nat.eq_zero_or_pos i with h0 | hpos
  · rw [h0] at heq
    rw [heq]
    rfl
  · exact absurd (by simpa using hfirst 0 hpos) h

theorem slugify_unique_of_mem {s : Str} {used : List Str}
    (h : slugify s ∈ used) :
    ∃ k, 2 ≤ k ∧ slugify_unique s used = candidate (slugify s) k
      ∧ candidate (slugify s) k ∉ used
      ∧ ∀ j, 2 ≤ j → j < k → candidate (slugify s) j ∈ used := by
  obtain ⟨i, _, heq, hf, hfirst⟩ := slugify_unique_cases s used
  have hipos : 1 ≤ i := by
    rcases Nat.eq_zero_or_pos i with h0 | hpos
    · rw [h0] at hf
      exact absurd h (by simpa using hf)
    · exact hpos
  refine ⟨1 + i, by omega, heq, hf, ?_⟩
  intro j h2 hj
  have := hfirst (j - 1) (by omega)
  rw [show 1 + (j - 1) = j by omega] at this
  exact this

theorem dictInsert_of_fresh {cs : List Node} {k : Str} (v : Node)
    (h : k ∉ keysOf cs) : dictInsert cs k v = cs ++ [v] := by
  unfold dictInsert
  rw [if_neg h]

theorem keysOf_append_one (cs : List Node) (v : Node) :
    keysOf (cs ++ [v]) = keysOf cs ++ [v.id] := by
  simp [keysOf]

theorem nodup_keys_insert_fresh {cs : List Node} {k : Str} (v : Node)
    (hnd : (keysOf cs).Nodup) (hv : v.id = k) (h : k ∉ keysOf cs) :
    (keysOf (dictInsert cs k v)).Nodup := by
  rw [dictInsert_of_fresh v h, keysOf_append_one, hv]
  simp [List.nodup_append, hnd, h]

theorem nodup_keys_applyOp {cs : List Node} (h : (keysOf cs).Nodup)
    (op : AddOp) : (keysOf (applyOp cs op)).Nodup := by
  cases op with
  | addCat t d =>
    show (keysOf (add_category cs t d none).2).Nodup
    unfold add_category
    exact nodup_keys_insert_fresh _ h rfl (slugify_unique_not_mem t (keysOf cs))
  | addTask t d m =>
    show (keysOf (add_task cs t d none m).2).Nodup
    unfold add_task
    cases m with
    | unset => exact nodup_keys_insert_fresh _ h rfl (slugify_unique_not_mem t (keysOf cs))
    | int n => exact nodup_keys_insert_fresh _ h rfl (slugify_unique_not_mem t (keysOf cs))
    | notInt => exact h

theorem nodup_keys_applyOps {cs : List Node} (ops : List AddOp)
    (h : (keysOf cs).Nodup) : (keysOf (applyOps cs ops)).Nodup := by
  induction ops generalizing cs with
  | nil => exact h
  | cons op ops ih => exact ih (nodup_keys_applyOp h op)

theorem isDash_eq_false_of_isAlnum {c : Char} (h : isAlnum c = true) :
    isDash c = false := by
  by_contra hc
  rw [Bool.not_eq_false] at hc
  have hc' : c = '-' := of_decide_eq_true hc
  subst hc'
  exact absurd h (by decide)

theorem isAlnum_eq_false_of_dash {c : Char} (h : c = '-') : isAlnum c = false := by
  subst h
  decide

theorem subDash_mem :
    ∀ (s : Str) (b : Bool), ∀ c ∈ subDash b s, isAlnum c = true ∨ c = '-' := by
  intro s
  induction s with
  | nil =>
    intro b c hc
    simp [subDash] at hc
  | cons a s ih =>
    intro b c hc
    simp only [subDash] at hc
    by_cases ha : isAlnum a
    · rw [if_pos ha] at hc
      rcases List.mem_cons.mp hc with rfl | hmem
      · exact Or.inl ha
      · exact ih false c hmem
    · rw [if_neg ha] at hc
      cases b with
      | true => exact ih true c hc
      | false =>
        rcases List.mem_cons.mp hc with rfl | hmem
        · exact Or.inr rfl
        · exact ih true c hmem

theorem subDash_true_headNotDash : ∀ s : Str, headNotDash (subDash true s) := by
  intro s
  induction s with
  | nil =>
    intro c hc
    simp [subDash] at hc
  | cons a s ih =>
    intro c hc
    simp only [subDash] at hc
    by_cases ha : isAlnum a
    · rw [if_pos ha] at hc
      simp only [List.head?_cons, Option.some.injEq] at hc
      subst hc
      exact isDash_eq_false_of_isAlnum ha
    · rw [if_neg ha] at hc
      exact ih c hc

theorem subDash_noTwoDashes : ∀ (s : Str) (b : Bool), noTwoDashes (subDash b s) := by
  intro s
  induction s with
  | nil =>
    intro b
    simp [subDash, noTwoDashes]
  | cons a s ih =>
    intro b
    simp only [subDash, noTwoDashes]
    by_cases ha : isAlnum a
    · rw [if_pos ha]
      refine List.chain'_cons'.mpr ⟨fun y _ => ?_, ih false⟩
      simp [isDash_eq_false_of_isAlnum ha]
    · rw [if_neg ha]
      cases b with
      | true => exact ih true
      | false =>
        refine List.chain'_cons'.mpr ⟨fun y hy => ?_, ih true⟩
        have := subDash_true_headNotDash s y hy
        simp [this]

theorem toNat_ofNat_valid {n : Nat} (h : n < 55296) : (Char.ofNat n).toNat = n := by
  rw [Char.ofNat, dif_pos (Or.inl h)]
  rfl

theorem toLower_toNat_of_upper {c : Char} (h1 : 65 ≤ c.toNat) (h2 : c.toNat ≤ 90) :
    (Char.toLower c).toNat = c.toNat + 32 := by
  unfold Char.toLower
  rw [if_pos ⟨h1, h2⟩]
  exact toNat_ofNat_valid (by omega)

theorem toLower_eq_of_not_upper {c : Char} (h : ¬(65 ≤ c.toNat ∧ c.toNat ≤ 90)) :
    Char.toLower c = c := by
  unfold Char.toLower
  rw [if_neg h]

theorem isDash_iff_toNat {c : Char} : isDash c = true ↔ c.toNat = 45 := by
  constructor
  · intro h
    have : c = '-' := of_decide_eq_true h
    subst this
    rfl
  · intro h
    have hv : Char.ofNat c.toNat = Char.ofNat 45 := by rw [h]
    rw [Char.ofNat_toNat] at hv
    subst hv
    rfl

theorem isDash_toLower (c : Char) : isDash (Char.toLower c) = isDash c := by
  by_cases h : 65 ≤ c.toNat ∧ c.toNat ≤ 90
  · have hl := toLower_toNat_of_upper h.1 h.2
    have h1 : isDash (Char.toLower c) = false := by
      by_contra hx
      rw [Bool.not_eq_false, isDash_iff_toNat] at hx
      omega
    have h2 : isDash c = false := by
      by_contra hx
      rw [Bool.not_eq_false, isDash_iff_toNat] at hx
      omega
    rw [h1, h2]
  · rw [toLower_eq_of_not_upper h]

theorem isLowerDigitDash_toLower {c : Char} (h : isAlnum c = true ∨ c = '-') :
    isLowerDigitDash (Char.toLower c) = true := by
  rcases h with h | rfl
  · simp only [isAlnum, Bool.or_eq_true, Bool.and_eq_true, decide_eq_true_iff] at h
    rcases h with (h | h) | h
    · have hl := toLower_toNat_of_upper h.1 h.2
      simp only [isLowerDigitDash, Bool.or_eq_true, Bool.and_eq_true, decide_eq_true_iff]
      left
      left
      omega
    · rw [toLower_eq_of_not_upper (by omega)]
      simp only [isLowerDigitDash, Bool.or_eq_true, Bool.and_eq_true, decide_eq_true_iff]
      left
      left
      omega
    · rw [toLower_eq_of_not_upper (by omega)]
      simp only [isLowerDigitDash, Bool.or_eq_true, Bool.and_eq_true, decide_eq_true_iff]
      left
      right
      omega
  · decide

theorem toLower_of_isLowerDigitDash {c : Char} (h : isLowerDigitDash c = true) :
    Char.toLower c = c := by
  apply toLower_eq_of_not_upper
  simp only [isLowerDigitDash, Bool.or_eq_true, Bool.and_eq_true, decide_eq_true_iff] at h
  rcases h with (h | h) | h
  · omega
  · omega
  · rw [isDash_iff_toNat] at h
    omega

theorem isAlnum_or_dash_of_isLowerDigitDash {c : Char} (h : isLowerDigitDash c = true) :
    isAlnum c = true ∨ c = '-' := by
  simp only [isLowerDigitDash, Bool.or_eq_true, Bool.and_eq_true, decide_eq_true_iff] at h
  rcases h with (h | h) | h
  · exact Or.inl (by simp only [isAlnum, Bool.or_eq_true, Bool.and_eq_true,
      decide_eq_true_iff]; omega)
  · exact Or.inl (by simp only [isAlnum, Bool.or_eq_true, Bool.and_eq_true,
      decide_eq_true_iff]; omega)
  · exact Or.inr (of_decide_eq_true h)

theorem mem_stripDash {l : Str} {c : Char} (h : c ∈ stripDash l) : c ∈ l := by
  unfold stripDash at h
  rw [List.mem_reverse] at h
  have h2 := (List.dropWhile_sublist isDash (l := (l.dropWhile isDash).reverse)).subset h
  rw [List.mem_reverse] at h2
  exact (List.dropWhile_sublist isDash (l := l)).subset h2

theorem slugify_chars (s : Str) : ∀ c ∈ slugify s, isLowerDigitDash c = true := by
  intro c hc
  have hmem := mem_stripDash hc
  rw [List.mem_map] at hmem
  obtain ⟨d, hd, rfl⟩ := hmem
  exact isLowerDigitDash_toLower (subDash_mem s false d hd)

theorem noTwoDashes_map_toLower {l : Str} (h : noTwoDashes l) :
    noTwoDashes (l.map Char.toLower) := by
  unfold noTwoDashes at h ⊢
  rw [List.chain'_map]
  exact h.imp fun a b hab => by simp only [isDash_toLower]; exact hab

theorem noTwoDashes_dropWhile {l : Str} (h : noTwoDashes l) :
    noTwoDashes (l.dropWhile isDash) := by
  unfold noTwoDashes at h ⊢
  have hsplit : l.takeWhile isDash ++ l.dropWhile isDash = l :=
    List.takeWhile_append_dropWhile isDash l
  rw [← hsplit] at h
  exact (List.chain'_append.mp h).2.1

theorem noTwoDashes_reverse {l : Str} (h : noTwoDashes l) : noTwoDashes l.reverse := by
  unfold noTwoDashes at h ⊢
  rw [List.chain'_reverse]
  exact h.imp fun a b hab => by
    simp only [flip]
    rw [Bool.and_comm]
    exact hab

theorem noTwoDashes_stripDash {l : Str} (h : noTwoDashes l) :
    noTwoDashes (stripDash l) := by
  unfold stripDash
  exact noTwoDashes_reverse (noTwoDashes_dropWhile (noTwoDashes_reverse
    (noTwoDashes_dropWhile h)))

theorem slugify_noTwoDashes (s : Str) : noTwoDashes (slugify s) :=
  noTwoDashes_stripDash (noTwoDashes_map_toLower (subDash_noTwoDashes s false))

theorem head?_dropWhile_not {l : Str} {c : Char}
    (h : (l.dropWhile isDash).head? = some c) : isDash c = false := by
  induction l with
  | nil => simp at h
  | cons a as ih =>
    rw [List.dropWhile_cons] at h
    by_cases ha : isDash a
    · rw [if_pos ha] at h
      exact ih h
    · rw [if_neg ha] at h
      simp only [List.head?_cons, Option.some.injEq] at h
      subst h
      simpa using ha

theorem headNotDash_stripDash (l : Str) : headNotDash (stripDash l) := by
  intro c hc
  unfold stripDash at hc
  rw [List.head?_reverse] at hc
  have hsplit : ((l.dropWhile isDash).reverse.takeWhile isDash) ++
      ((l.dropWhile isDash).reverse.dropWhile isDash) = (l.dropWhile isDash).reverse :=
    List.takeWhile_append_dropWhile isDash _
  have h1 : (l.dropWhile isDash).reverse.getLast? = some c := by
    rw [← hsplit, List.getLast?_append, hc]
    rfl
  rw [List.getLast?_reverse] at h1
  exact head?_dropWhile_not h1

theorem lastNotDash_stripDash (l : Str) : lastNotDash (stripDash l) := by
  intro c hc
  unfold stripDash at hc
  rw [List.getLast?_reverse] at hc
  exact head?_dropWhile_not hc

theorem dropWhile_isDash_of_headNotDash {l : Str} (h : headNotDash l) :
    l.dropWhile isDash = l := by
  cases l with
  | nil => rfl
  | cons a as =>
    rw [List.dropWhile_cons, if_neg]
    simp [h a rfl]

theorem stripDash_of_noDash {l : Str} (h1 : headNotDash l) (h2 : lastNotDash l) :
    stripDash l = l := by
  have hrev : headNotDash l.reverse := by
    intro c hc
    rw [List.head?_reverse] at hc
    exact h2 c hc
  unfold stripDash
  rw [dropWhile_isDash_of_headNotDash h1, dropWhile_isDash_of_headNotDash hrev]
  exact List.reverse_reverse l

theorem subDash_fix :
    ∀ l : Str, (∀ c ∈ l, isAlnum c = true ∨ c = '-') → noTwoDashes l →
      subDash false l = l ∧ (headNotDash l → subDash true l = l) := by
  intro l
  induction l with
  | nil => exact fun _ _ => ⟨rfl, fun _ => rfl⟩
  | cons a as ih =>
    intro hchar hdd
    have hchar' : ∀ c ∈ as, isAlnum c = true ∨ c = '-' :=
      fun c hc => hchar c (List.mem_cons_of_mem a hc)
    have hpair := (List.chain'_cons'.mp hdd).1
    have hdd' : noTwoDashes as := (List.chain'_cons'.mp hdd).2
    obtain ⟨ihf, iht⟩ := ih hchar' hdd'
    rcases hchar a (List.mem_cons_self a as) with ha | ha
    · constructor
      · show subDash false (a :: as) = a :: as
        simp only [subDash, if_pos ha, ihf]
      · intro _
        show subDash true (a :: as) = a :: as
        simp only [subDash, if_pos ha, ihf]
    · subst ha
      have hhd : headNotDash as := by
        intro y hy
        have hx := hpair y (by rw [hy]; rfl)
        rw [show isDash '-' = true from rfl] at hx
        simpa using hx
      constructor
      · show subDash false ('-' :: as) = '-' :: as
        simp only [subDash, if_neg (by decide : ¬isAlnum '-' = true)]
        rw [iht hhd]
      · intro hh
        exact absurd (hh '-' rfl) (by decide)

theorem map_toLower_fix {l : Str} (h : ∀ c ∈ l, isLowerDigitDash c = true) :
    l.map Char.toLower = l := by
  have heq : ∀ c ∈ l, Char.toLower c = id c :=
    fun c hc => toLower_of_isLowerDigitDash (h c hc)
  rw [List.map_congr_left heq, List.map_id]

theorem slugify_idem (s : Str) : slugify (slugify s) = slugify s := by
  have hch := slugify_chars s
  have hdd := slugify_noTwoDashes s
  have hh : headNotDash (slugify s) := headNotDash_stripDash _
  have hl : lastNotDash (slugify s) := lastNotDash_stripDash _
  show stripDash ((subDash false (slugify s)).map Char.toLower) = slugify s
  rw [(subDash_fix (slugify s)
    (fun c hc => isAlnum_or_dash_of_isLowerDigitDash (hch c hc)) hdd).1]
  rw [map_toLower_fix hch]
  exact stripDash_of_noDash hh hl

theorem catsFrom_false : ∀ l : List Node, catsFrom l false = l.filter Node.isCat := by
  intro l
  induction l with
  | nil => simp [catsFrom]
  | cons v rest ih =>
    cases v with
    | cat i t d cs2 => simp [catsFrom, ih, List.filter, Node.isCat]
    | task i t d m => simp [catsFrom, ih, List.filter, Node.isCat]

theorem tasksFrom_false : ∀ l : List Node, tasksFrom l false = l.filter Node.isTask := by
  intro l
  induction l with
  | nil => simp [tasksFrom]
  | cons v rest ih =>
    cases v with
    | cat i t d cs2 => simp [tasksFrom, ih, List.filter, Node.isTask]
    | task i t d m => simp [tasksFrom, ih, List.filter, Node.isTask]

theorem categories_false_eq (i t d : Str) (cs : List Node) :
    Node.categories (.cat i t d cs) false = (sortNodes cs).filter Node.isCat := by
  rw [Node.categories, catsFrom_false]

theorem tasks_false_eq (i t d : Str) (cs : List Node) :
    Node.tasks (.cat i t d cs) false = (sortNodes cs).filter Node.isTask := by
  rw [Node.tasks, tasksFrom_false]

theorem pairwise_lt_of_le_nodup {l : List Str}
    (h1 : l.Pairwise (· ≤ ·)) (h2 : l.Nodup) : l.Pairwise (· < ·) :=
  (h1.and h2).imp fun h => lt_of_le_of_ne h.1 h.2

theorem nodup_keys_filter_sort (p : Node → Bool) {cs : List Node}
    (h : (keysOf cs).Nodup) : (keysOf ((sortNodes cs).filter p)).Nodup := by
  have hperm : (keysOf (sortNodes cs)).Perm (keysOf cs) :=
    (List.perm_insertionSort idLe cs).map Node.id
  have h1 : (keysOf (sortNodes cs)).Nodup := hperm.nodup_iff.mpr h
  exact List.Nodup.sublist ((List.filter_sublist (sortNodes cs)).map Node.id) h1

theorem pairwise_le_keys_filter_sort (p : Node → Bool) (cs : List Node) :
    (keysOf ((sortNodes cs).filter p)).Pairwise (· ≤ ·) := by
  have hs : (sortNodes cs).Pairwise idLe := List.sorted_insertionSort idLe cs
  have hf : ((sortNodes cs).filter p).Pairwise idLe :=
    hs.sublist (List.filter_sublist (sortNodes cs))
  exact List.pairwise_map.mpr hf

/-- Keys of the non-recursive filtered listing are strictly increasing. -/
theorem keys_filter_sort_strict (p : Node → Bool) {cs : List Node}
    (h : (keysOf cs).Nodup) :
    (keysOf ((sortNodes cs).filter p)).Pairwise (· < ·) :=
  pairwise_lt_of_le_nodup (pairwise_le_keys_filter_sort p cs)
    (nodup_keys_filter_sort p h)

theorem sumMins_append (a b : List Node) :
    sumMins (a ++ b) = sumMins a + sumMins b := by
  simp [sumMins]

theorem sumMins_perm {l1 l2 : List Node} (h : l1.Perm l2) :
    sumMins l1 = sumMins l2 :=
  (h.map minsOrZero).sum_eq

theorem reachTasksL_eq_flatten : ∀ l : List Node,
    reachTasksL l = (l.map reachTasks).flatten := by
  intro l
  induction l with
  | nil => simp [reachTasksL]
  | cons v vs ih => simp [reachTasksL, ih]

theorem reachTasksL_perm {l1 l2 : List Node} (h : l1.Perm l2) :
    (reachTasksL l1).Perm (reachTasksL l2) := by
  rw [reachTasksL_eq_flatten, reachTasksL_eq_flatten]
  exact (h.map reachTasks).flatten

theorem sumMins_tasksFrom_reach :
    ∀ (N : Nat) (l : List Node), sizeOf l ≤ N →
      sumMins (tasksFrom l true) = sumMins (reachTasksL l) := by
  intro N
  induction N with
  | zero =>
    intro l h
    have : 0 < sizeOf l := by cases l <;> simp_arith
    omega
  | succ N ih =>
    intro l h
    match l with
    | [] => simp [tasksFrom, reachTasksL]
    | v :: rest =>
      have hsz : sizeOf (v :: rest) = 1 + sizeOf v + sizeOf rest := by simp_arith
      cases v with
      | task i t d m =>
        have h1 : sumMins (tasksFrom rest true) = sumMins (reachTasksL rest) :=
          ih rest (by omega)
        simp only [tasksFrom, reachTasksL, reachTasks]
        rw [sumMins_append, sumMins_append, sumMins_append, h1]
        simp [sumMins]
      | cat i t d cs2 =>
        have hsz2 : sizeOf (Node.cat i t d cs2) = 1 + sizeOf i + sizeOf t + sizeOf d + sizeOf cs2 := by
          simp_arith
        have h1 : sumMins (tasksFrom rest true) = sumMins (reachTasksL rest) :=
          ih rest (by omega)
        have h2 : sumMins (tasksFrom (sortNodes cs2) true) =
            sumMins (reachTasksL (sortNodes cs2)) := by
          refine ih (sortNodes cs2) ?_
          rw [sizeOf_sortNodes]
          omega
        have h3 : sumMins (reachTasksL (sortNodes cs2)) = sumMins (reachTasksL cs2) :=
          sumMins_perm (reachTasksL_perm (List.perm_insertionSort idLe cs2))
        simp only [tasksFrom, reachTasksL, reachTasks]
        rw [Node.tasks]
        simp only [if_pos]
        rw [sumMins_append, sumMins_append, sumMins_append, h1, h2, h3]
        simp [sumMins]

theorem total_mins_eq_sum_reach (i t d : Str) (cs : List Node) :
    Node.total_mins (.cat i t d cs) true = sumMins (reachTasks (.cat i t d cs)) := by
  show sumMins ((Node.cat i t d cs).tasks true) = _
  rw [Node.tasks, reachTasks]
  rw [sumMins_tasksFrom_reach (sizeOf (sortNodes cs)) (sortNodes cs) le_rfl]
  exact sumMins_perm (reachTasksL_perm (List.perm_insertionSort idLe cs))

/-- C1 counterexample: the claim requires add_task to fail with
InvalidDuration for every supplied `mins` that is not a *non-negative*
integer, but Task.__init__ only checks `isinstance(mins, int)`: the negative
integer -5 is not rejected — the call succeeds and inserts a Task whose mins
is -5. -/
theorem C1_counterexample :
    minsOkSpecC1 (.int (-5)) = false
    ∧ (add_task [] "T".data "".data none (.int (-5))).1 = .ok ()
    ∧ (add_task [] "T".data "".data none (.int (-5))).2 =
        [Node.task "t".data "T".data "".data (some (-5))] :=
  ⟨by decide, rfl, rfl⟩

/-- C1 (amended): for every add_task call whose explicit id (if any) is not
already taken, the call fails with InvalidDuration exactly when the supplied
`mins` is of a non-integer type; the sign is not checked, so an unset mins or
any integer (negative included) does not fail for this reason, and on failure
no Task is inserted (the child mapping is unchanged). -/
theorem C1_duration_check (cs : List Node) (title descr : Str) (id? : Option Str)
    (m : MinsArg)
    (hid : id? = none ∨ ∃ i, id? = some i ∧ i ∉ keysOf cs) :
    ((add_task cs title descr id? m).1 = .error .invalidDuration ↔ m = .notInt)
    ∧ (m = .notInt → (add_task cs title descr id? m).2 = cs)
    ∧ (m ≠ .notInt → (add_task cs title descr id? m).1 = .ok ()) := by
  rcases hid with rfl | ⟨i, rfl, hfresh⟩
  · cases m <;> simp [add_task, checkMins]
  · cases m <;> simp [add_task, checkMins, hfresh]

/-- C1 witness: the amended theorem applied at a concrete rejected call. -/
theorem C1_witness :
    (((add_task [] "T".data "".data none .notInt).1 = .error .invalidDuration ↔
        MinsArg.notInt = MinsArg.notInt)
      ∧ (MinsArg.notInt = MinsArg.notInt →
          (add_task [] "T".data "".data none .notInt).2 = [])
      ∧ (MinsArg.notInt ≠ MinsArg.notInt →
          (add_task [] "T".data "".data none .notInt).1 = .ok ())) :=
  C1_duration_check [] "T".data "".data none .notInt (Or.inl rfl)

/-- C2 counterexample: on the input "a--b" the code's normalization collapses
the dash run (the regex class is `[^A-Za-z0-9]`, dash included in the
separators) and returns "a-b", while the procedure worded by the claim (dash
preserved, never part of a replaced run) returns "a--b". -/
theorem C2_counterexample :
    slugify "a--b".data ≠ normalizeSpecC2 "a--b".data
    ∧ slugify "a--b".data = "a-b".data
    ∧ normalizeSpecC2 "a--b".data = "a--b".data :=
  ⟨by decide, by decide, by decide⟩

/-- C2 (amended): normalize replaces each maximal run of characters that are
not ASCII letters or digits — dashes are separator characters too — with a
single dash, lowercases, and strips leading and trailing dashes; the output
therefore uses only lowercase letters, digits and isolated internal dashes
(no two adjacent dashes, none at either end) and may be empty. -/
theorem C2_output_shape (s : Str) :
    (∀ c ∈ slugify s, isLowerDigitDash c = true)
    ∧ noTwoDashes (slugify s)
    ∧ headNotDash (slugify s)
    ∧ lastNotDash (slugify s) :=
  ⟨slugify_chars s, slugify_noTwoDashes s,
    headNotDash_stripDash _, lastNotDash_stripDash _⟩

/-- C2 witness: the amended theorem applied at a concrete input. -/
theorem C2_witness :
    (∀ c ∈ slugify " Hello, Joel--X ".data, isLowerDigitDash c = true)
    ∧ noTwoDashes (slugify " Hello, Joel--X ".data)
    ∧ headNotDash (slugify " Hello, Joel--X ".data)
    ∧ lastNotDash (slugify " Hello, Joel--X ".data) :=
  C2_output_shape " Hello, Joel--X ".data

/-- C3: slugify_unique returns normalize(text) when it is free, and otherwise
the first free candidate of base-2, base-3, ...; the result is never in
`used` (the model is a pure function, so `used` is not mutated and the result
is deterministic); for empty `used` it is normalize(text); and the two
concrete examples of the specification hold. -/
theorem C3_slugify_unique_correct :
    (∀ (s : Str) (used : List Str),
        slugify_unique s used ∉ used
        ∧ (slugify s ∉ used → slugify_unique s used = slugify s)
        ∧ (slugify s ∈ used →
            ∃ k, 2 ≤ k ∧ slugify_unique s used = candidate (slugify s) k
              ∧ candidate (slugify s) k ∉ used
              ∧ ∀ j, 2 ≤ j → j < k → candidate (slugify s) j ∈ used))
    ∧ (∀ s : Str, slugify_unique s [] = slugify s)
    ∧ slugify_unique "Hello".data ["hello".data] = "hello-2".data
    ∧ slugify_unique "Hello".data ["hello".data, "hello-2".data] = "hello-3".data :=
  ⟨fun s used => ⟨slugify_unique_not_mem s used,
      fun h => slugify_unique_of_not_mem h,
      fun h => slugify_unique_of_mem h⟩,
    fun s => slugify_unique_of_not_mem (by simp),
    by decide, by decide⟩

/-- C3 witness: the example extracted from the theorem itself. -/
theorem C3_witness :
    slugify_unique "Hello".data ["hello".data] = "hello-2".data :=
  C3_slugify_unique_correct.2.2.1

/-- C4: starting from any child mapping with distinct keys, after any finite
sequence of addCategory / addTask calls without explicit ids the keys are
still distinct, and at every reachable state the next generated id differs
from every existing sibling key. -/
theorem C4_sibling_ids_unique (cs : List Node) (ops : List AddOp)
    (h : (keysOf cs).Nodup) :
    (keysOf (applyOps cs ops)).Nodup
    ∧ ∀ title : Str,
        slugify_unique title (keysOf (applyOps cs ops)) ∉ keysOf (applyOps cs ops) :=
  ⟨nodup_keys_applyOps ops h, fun title => slugify_unique_not_mem title _⟩

/-- C4 witness: two id-less addCategory("Hello") calls on an empty parent. -/
theorem C4_witness :
    (keysOf (applyOps []
        [.addCat "Hello".data "".data, .addCat "Hello".data "".data])).Nodup
    ∧ ∀ title : Str,
        slugify_unique title (keysOf (applyOps []
            [.addCat "Hello".data "".data, .addCat "Hello".data "".data]))
          ∉ keysOf (applyOps []
              [.addCat "Hello".data "".data, .addCat "Hello".data "".data]) :=
  C4_sibling_ids_unique []
    [.addCat "Hello".data "".data, .addCat "Hello".data "".data] List.nodup_nil

/-- C5: for every category with distinct child keys, the non-recursive
listings are exactly the Category (resp. Task) children — a permutation of
the corresponding filter of the child list — and their ids are strictly
increasing, regardless of insertion order. -/
theorem C5_listing_sorted (i t d : Str) (cs : List Node)
    (h : (keysOf cs).Nodup) :
    (keysOf (Node.categories (.cat i t d cs) false)).Pairwise (· < ·)
    ∧ (Node.categories (.cat i t d cs) false).Perm (cs.filter Node.isCat)
    ∧ (keysOf (Node.tasks (.cat i t d cs) false)).Pairwise (· < ·)
    ∧ (Node.tasks (.cat i t d cs) false).Perm (cs.filter Node.isTask) := by
  rw [categories_false_eq, tasks_false_eq]
  exact ⟨keys_filter_sort_strict _ h,
    (List.perm_insertionSort idLe cs).filter _,
    keys_filter_sort_strict _ h,
    (List.perm_insertionSort idLe cs).filter _⟩

/-- C5 witness: a category whose children were inserted out of id order. -/
theorem C5_witness :
    (keysOf (Node.categories (.cat "r".data "R".data "".data
        [.cat "b".data "B".data "".data [],
         .task "c".data "C".data "".data none,
         .cat "a".data "A".data "".data []]) false)).Pairwise (· < ·)
    ∧ (Node.categories (.cat "r".data "R".data "".data
        [.cat "b".data "B".data "".data [],
         .task "c".data "C".data "".data none,
         .cat "a".data "A".data "".data []]) false).Perm
        ([.cat "b".data "B".data "".data [],
          .task "c".data "C".data "".data none,
          .cat "a".data "A".data "".data []].filter Node.isCat)
    ∧ (keysOf (Node.tasks (.cat "r".data "R".data "".data
        [.cat "b".data "B".data "".data [],
         .task "c".data "C".data "".data none,
         .cat "a".data "A".data "".data []]) false)).Pairwise (· < ·)
    ∧ (Node.tasks (.cat "r".data "R".data "".data
        [.cat "b".data "B".data "".data [],
         .task "c".data "C".data "".data none,
         .cat "a".data "A".data "".data []]) false).Perm
        ([.cat "b".data "B".data "".data [],
          .task "c".data "C".data "".data none,
          .cat "a".data "A".data "".data []].filter Node.isTask) :=
  C5_listing_sorted "r".data "R".data "".data
    [.cat "b".data "B".data "".data [],
     .task "c".data "C".data "".data none,
     .cat "a".data "A".data "".data []] (by decide)

/-- C6: for every category, total_mins with recurse equals the sum of `mins`
(unset counted as 0) over every Task transitively reachable under it. -/
theorem C6_total_recursive (i t d : Str) (cs : List Node) :
    Node.total_mins (.cat i t d cs) true = sumMins (reachTasks (.cat i t d cs)) :=
  total_mins_eq_sum_reach i t d cs

/-- C7: deleting a resolvable non-root category that has at least one child
with recurse false always fails with NotEmpty, and the tree handed back with
the failure is the original tree unchanged. -/
theorem C7_delete_nonempty_fails (root : Node) (path : List Str) (i t d : Str)
    (cs : List Node) (hne : path ≠ [])
    (hres : resolve root path = .ok (.cat i t d cs)) (hcs : cs ≠ []) :
    do_rm root path false = (.error .notEmpty, root) := by
  cases path with
  | nil => exact absurd rfl hne
  | cons seg rest =>
    simp only [do_rm, hres]
    rw [if_pos]
    exact ⟨by simpa [List.isEmpty_iff] using hcs, trivial⟩

/-- C7 witness: removing the non-empty category work.projects without the
recursive flag. -/
theorem C7_witness :
    do_rm sampleTree ["work".data, "projects".data] false =
      (.error .notEmpty, sampleTree) :=
  C7_delete_nonempty_fails sampleTree ["work".data, "projects".data]
    "projects".data "Projects".data "".data
    [.task "design".data "Design".data "".data (some 90)]
    (by simp) rfl (by simp)

/-- C8: evaluation of the code at the failing input.  Deleting a task through
do_rm raises TypeError for recurse false and true alike, because
`Task.delete(self)` accepts no `recurse` keyword while do_rm always passes
one; Task.delete invoked directly fails with NoParent exactly on a detached
task and otherwise removes the task from its parent's child mapping. -/
theorem C8_task_delete_typeError :
    do_rm sampleTree ["work".data, "projects".data, "design".data] false
        = (.error .typeError, sampleTree)
    ∧ do_rm sampleTree ["work".data, "projects".data, "design".data] true
        = (.error .typeError, sampleTree)
    ∧ Task.delete none "design".data = .error .noParent
    ∧ Task.delete (some [Node.task "design".data "Design".data "".data (some 90)])
        "design".data = .ok [] :=
  ⟨rfl, rfl, rfl, rfl⟩

/-- C9: normalize is idempotent. -/
theorem C9_normalize_idem (s : Str) : slugify (slugify s) = slugify s :=
  slugify_idem s

/-- C10: an explicit id is stored exactly as given — no slugification,
lowercasing or validation; the only check is an exact collision test against
the parent's existing keys, so any string (uppercase, dots, spaces, empty)
is accepted verbatim when free and rejected with DuplicateId when taken. -/
theorem C10_explicit_id_verbatim (cs : List Node) (e title descr : Str)
    (m : MinsArg) :
    (e ∈ keysOf cs →
        add_category cs title descr (some e) = (.error .duplicateId, cs)
        ∧ add_task cs title descr (some e) m = (.error .duplicateId, cs))
    ∧ (e ∉ keysOf cs →
        add_category cs title descr (some e) = (.ok (), cs ++ [.cat e title descr []])
        ∧ (m ≠ .notInt →
            add_task cs title descr (some e) m
              = (.ok (), cs ++ [.task e title descr (minsVal m)]))) := by
  constructor
  · intro hmem
    constructor
    · simp [add_category, hmem]
    · simp [add_task, hmem]
  · intro hfresh
    constructor
    · simp only [add_category]
      rw [if_neg hfresh, dictInsert_of_fresh _ hfresh]
    · intro hm
      cases m with
      | unset =>
        simp only [add_task, checkMins, minsVal]
        rw [if_neg hfresh, dictInsert_of_fresh _ hfresh]
      | int n =>
        simp only [add_task, checkMins, minsVal]
        rw [if_neg hfresh, dictInsert_of_fresh _ hfresh]
      | notInt => exact absurd rfl hm

/-- C10 witness: the explicit id "My ID." (uppercase, space, dot) is stored
verbatim on an empty parent. -/
theorem C10_witness :
    add_category [] "Title".data "".data (some "My ID.".data)
      = (.ok (), [Node.cat "My ID.".data "Title".data "".data []]) :=
  ((C10_explicit_id_verbatim [] "My ID.".data "Title".data "".data .unset).2
    (by simp [keysOf])).1

end TimeTracker
